import Mathlib

/-!
Verification of `internal/image.py` and `internal/vis.py` (refnerf-pl).

Shallow embedding conventions:
* torch tensors of floats are embedded as rational numbers (`ℚ`) arranged in
  nested lists (one list level per tensor dimension), except for the sRGB
  conversions, which need real fractional powers and are embedded over `ℝ`.
* elementwise tensor arithmetic becomes `List.map` / `List.zipWith`;
  `reshape([-1])` becomes flattening; indexing uses `List.getD`.
* in `ℚ`, division by zero yields 0; this stands in for the NaN-to-zero
  coercion (`torch.nan_to_num`) applied downstream of the one division that
  can degenerate in `visualize_cmap`.
-/

namespace RefNerf

/-! ### Generic list helpers (embedding of torch primitives) -/

/-- `torch.cumsum(w, dim=0)`: inclusive running sums. -/
def cumsum (l : List ℚ) : List ℚ :=
  (l.scanl (· + ·) 0).tail

/-- Dot product of two lists (zips, ignoring any tail of the longer list). -/
def dotL : List ℚ → List ℚ → ℚ
  | a :: as, b :: bs => a * b + dotL as bs
  | _, _ => 0

/-- `torch.clip(x, lo, hi)` on a scalar. -/
def clipQ (x lo hi : ℚ) : ℚ := min (max x lo) hi

/-- Machine epsilon of float32, `torch.finfo(torch.float32).eps = 2⁻²³`. -/
def f32eps : ℚ := 1 / 8388608

/-! ### `image.linear_to_srgb` / `image.srgb_to_linear`

These use fractional powers, so they are embedded over `ℝ`. -/

/-- Machine epsilon of float32 (`torch.finfo(torch.float32).eps`), as a
real number; the default `eps` of both conversions. -/
noncomputable def f32epsR : ℝ := 1 / 8388608

/-- `image.linear_to_srgb(linear, eps)`:
`where(linear <= 0.0031308, 323/25 * linear,
       (211 * maximum(eps, linear)**(5/12) - 11) / 200)`. -/
noncomputable def linear_to_srgb (linear : ℝ) (eps : ℝ := f32epsR) : ℝ :=
  if linear ≤ 0.0031308 then 323 / 25 * linear
  else (211 * (max eps linear) ^ ((5 : ℝ) / 12) - 11) / 200

/-- `image.srgb_to_linear(srgb, eps)`:
`where(srgb <= 0.04045, 25/323 * srgb,
       maximum(eps, (200*srgb + 11) / 211)**(12/5))`. -/
noncomputable def srgb_to_linear (srgb : ℝ) (eps : ℝ := f32epsR) : ℝ :=
  if srgb ≤ 0.04045 then 25 / 323 * srgb
  else (max eps ((200 * srgb + 11) / 211)) ^ ((12 : ℝ) / 5)

/-- The linear-side value whose power-branch image is exactly `0.04045`:
`(19.09/211)^(12/5)`.  The two branch conditions disagree on the interval
`(0.0031308, srgbCross]` (and correspondingly on
`(12.92 · 0.0031308, 0.04045]` on the sRGB side), which is where the
round trips fail. -/
noncomputable def srgbCross : ℝ := ((1909 : ℝ) / 21100) ^ ((12 : ℝ) / 5)

/-! ### `math.interp`

The module `internal/math.py` is not part of the sources under verification;
only its caller `weighted_percentile` is. -/

/-- Modelled from the spec: `math.interp` (from the missing `internal/math.py`)
"linearly interpolate `t` against the `(cumw, values)` curve (monotone in
`cumw`) to produce the percentile value.  Interpolation outside
`[cumw[0], cumw[N-1]]` clamps to endpoints." -/
def interp (t : ℚ) : List ℚ → List ℚ → ℚ
  | x0 :: x1 :: xs, f0 :: f1 :: fs =>
      if t ≤ x0 then f0
      else if t ≤ x1 then f0 + (f1 - f0) * (t - x0) / (x1 - x0)
      else interp t (x1 :: xs) (f1 :: fs)
  | [_], f0 :: _ => f0
  | _, _ => 0

/-! ### `vis.weighted_percentile` -/

/-- `torch.argsort(x)` for a 1-D tensor: the list of indices of `x` in
(ascending) sorted order of the corresponding values. -/
def sortIdx (x : List ℚ) : List ℕ :=
  List.insertionSort (fun i j => x.getD i 0 ≤ x.getD j 0) (List.range x.length)

/-- `vis.weighted_percentile(x, weight, ps, assume_sorted)`.

Both inputs arrive already flattened (`x.reshape([-1])`,
`weight.reshape([-1])` are identities on 1-D data; callers flatten).
If not `assume_sorted`, `x` is sorted and `weight` is permuted by
`weight[torch.remainder(sortidx, len(weight))]` — note the index is reduced
modulo the *original* weight length.  Then percentiles are read off the
cumulative-weight curve by interpolation:
`math.interp(ps * acc_w[-1] / 100, acc_w, x)`. -/
def weighted_percentile (x weight : List ℚ) (ps : List ℚ)
    (assume_sorted : Bool := false) : List ℚ :=
  let xw : List ℚ × List ℚ :=
    if assume_sorted then (x, weight)
    else
      let idx := sortIdx x
      (idx.map (fun i => x.getD i 0),
       idx.map (fun i => weight.getD (i % weight.length) 0))
  let acc_w := cumsum xw.2
  ps.map (fun p => interp (p * (acc_w.getLast?.getD 0) / 100) acc_w xw.1)

/-! ### `vis.matte` -/

/-- The checkerboard mask
`torch.logical_xor((arange(H) % (2*width) // width)[:, None],
                   (arange(W) % (2*width) // width)[None, :])`:
an integer entry counts as true iff it is nonzero. -/
def bg_mask (width r c : ℕ) : Bool :=
  xor (r % (2 * width) / width ≠ 0) (c % (2 * width) / width ≠ 0)

/-- `vis.matte(vis, acc, dark=0.8, light=1.0, width=8)`:
`vis * acc[:, :, None] + (bg * (1 - acc))[:, :, None]` where
`bg = torch.where(bg_mask, light, dark)` is built on `acc`'s spatial shape. -/
def matte (vis : List (List (List ℚ))) (acc : List (List ℚ))
    (dark : ℚ := 4/5) (light : ℚ := 1) (width : ℕ := 8) :
    List (List (List ℚ)) :=
  acc.mapIdx fun r row =>
    row.mapIdx fun c a =>
      let bg : ℚ := if bg_mask width r c then light else dark
      ((vis.getD r []).getD c []).map fun v => v * a + bg * (1 - a)

/-! ### `image.color_correct`

`torch.linalg.lstsq` is an external collaborator (the spec's "dense
least-squares solve"); the embedding takes the solver as a function
parameter `solve`.  The only property of it that any theorem uses is the
defining property of a least-squares solution on a consistent system:
if some exact solution exists, the returned vector solves the system. -/

/-- `is_unclipped = lambda z: (z >= eps) & (z <= (1 - eps))`. -/
def is_unclipped (eps z : ℚ) : Bool :=
  decide (eps ≤ z) && decide (z ≤ 1 - eps)

/-- One row of the feature matrix `a_mat` built from one pixel `px`:
for each channel `c` the quadratic terms `px[c] * px[c:]`, then the linear
terms `px`, then the bias `1`. -/
def a_mat_row {C : ℕ} (px : Fin C → ℚ) : List ℚ :=
  ((List.finRange C).flatMap fun c =>
    ((List.finRange C).drop c.val).map fun c2 => px c * px c2)
  ++ (List.finRange C).map px ++ [(1 : ℚ)]

/-- One iteration of the `color_correct` loop: per channel, build the masked
system (`torch.where(mask[:, None], a_mat, 0)`, `torch.where(mask, b, 0)`),
solve it, stack the solutions, and recompute
`img_mat = clip(a_mat @ warp, 0, 1)`. -/
def ccStep {C N : ℕ}
    (solve : (Fin N → List ℚ) → (Fin N → ℚ) → List ℚ) (eps : ℚ)
    (mask0 : Fin N → Fin C → Bool) (refMat : Fin N → Fin C → ℚ)
    (imgMat : Fin N → Fin C → ℚ) : Fin N → Fin C → ℚ :=
  let aRow : Fin N → List ℚ := fun j => a_mat_row (imgMat j)
  let warp : Fin C → List ℚ := fun c =>
    let b : Fin N → ℚ := fun j => refMat j c
    let mask : Fin N → Bool := fun j =>
      mask0 j c && is_unclipped eps (imgMat j c) && is_unclipped eps (b j)
    let ma : Fin N → List ℚ := fun j =>
      if mask j then aRow j else (aRow j).map fun _ => 0
    let mb : Fin N → ℚ := fun j => if mask j then b j else 0
    solve ma mb
  fun j c => clipQ (dotL (aRow j) (warp c)) 0 1

/-- The `color_correct` main loop on flattened `[N, C]` matrices:
`num_iters` iterations of `ccStep`, with `mask0 = is_unclipped(img_mat)`
fixed from the original image. -/
def color_correct_mat {C N : ℕ}
    (solve : (Fin N → List ℚ) → (Fin N → ℚ) → List ℚ)
    (num_iters : ℕ) (eps : ℚ) (img ref : Fin N → Fin C → ℚ) :
    Fin N → Fin C → ℚ :=
  (ccStep solve eps (fun j c => is_unclipped eps (img j c)) ref)^[num_iters] img

/-- An image, already flattened to its `[N, C]` matrix form
(`img.reshape([-1, num_channels])`): `C` channels, `N` pixels. -/
structure Img where
  C : ℕ
  N : ℕ
  data : Fin N → Fin C → ℚ

/-- `image.color_correct(img, ref, num_iters=5, eps=0.5/255)`.

The source's only explicit check raises `ValueError` when the channel
counts differ (`img.shape[-1] != ref.shape[-1]`), before any pixel work.
A pixel-count mismatch is not checked by the source; it would fault inside
the loop when the library refuses to broadcast `ref`'s column against
`img`'s mask, which the embedding models as the second error case. -/
def color_correct (solve : (N : ℕ) → (Fin N → List ℚ) → (Fin N → ℚ) → List ℚ)
    (img ref : Img) (num_iters : ℕ := 5) (eps : ℚ := 1/510) :
    Except String Img :=
  if hC : img.C = ref.C then
    if hN : img.N = ref.N then
      .ok ⟨img.C, img.N,
        color_correct_mat (solve img.N) num_iters eps img.data
          (fun j c => ref.data (Fin.cast hN j) (Fin.cast hC c))⟩
    else .error "broadcast shape mismatch"
  else .error "channels must match"

/-- The vector with `1` at the linear-term slot of channel `c` and `0`
everywhere else; a certificate that the system solved by `color_correct`
with `ref = img` is consistent. -/
def unitVec (C : ℕ) (c : Fin C) : List ℚ :=
  ((List.finRange C).flatMap fun c1 =>
    ((List.finRange C).drop c1.val).map fun _ => (0 : ℚ))
  ++ (List.finRange C).map (fun c2 => if c2 = c then (1 : ℚ) else 0) ++ [(0 : ℚ)]

/-! ### `vis.visualize_rays`

`stepfun.resample` lives in `internal/stepfun.py`, which is not among the
sources under verification; the embedding takes it as a function parameter
`resampleF : dist_vis → ray_dists → curve → resampled curve` and no theorem
assumes anything about it beyond the length of its output. -/

/-- `torch.linspace(lo, hi, n)`. -/
def linspaceQ (lo hi : ℚ) (n : ℕ) : List ℚ :=
  (List.range n).map fun i => lo + (hi - lo) * i / ((n : ℚ) - 1)

/-- Transpose of a rectangular list-of-lists: the result has one row per
column of the first row, reading ragged rows with `getD`.  Also used for
`torch.stack(tensors, dim=1)`, which interleaves the outer two axes. -/
def transposeL {α : Type} (dflt : α) (xss : List (List α)) : List (List α) :=
  (List.range (xss.head?.getD []).length).map fun i =>
    xss.map fun xs => xs.getD i dflt

/-- `torch.cumsum(rows, dim=0)` for a list of equal-length vectors. -/
def cumsumVecs : List (List ℚ) → List (List ℚ)
  | [] => []
  | r :: rs => rs.scanl (fun acc row => List.zipWith (· + ·) acc row) r

/-- The `accumulate` branch of `visualize_rays`: per-sample weights/colors
are replaced by running alpha-composited values,
`r, w = (rw_csum + eps) / (w_csum[:, None] + 2*eps), w_csum`. -/
def accumulateRay (w : List ℚ) (r : List (List ℚ)) :
    List (List ℚ) × List ℚ :=
  let w_csum := cumsum w
  let rw_csum := cumsumVecs (List.zipWith (fun ri wi => ri.map (· * wi)) r w)
  (List.zipWith (fun rw wc => rw.map fun v => (v + f32eps) / (wc + 2 * f32eps))
    rw_csum w_csum, w_csum)

/-- `stepfun.resample(dist_vis, d, r.T, use_avg=True).T` for a multi-channel
curve `r : [S][C]`: transpose to `[C][S]`, resample each channel, transpose
back to `[T][C]`. -/
def rayRgbRows (resampleF : List ℚ → List ℚ → List ℚ → List ℚ)
    (tvis d : List ℚ) (r : List (List ℚ)) : List (List ℚ) :=
  transposeL 0 ((transposeL 0 r).map fun ch => resampleF tvis d ch)

/-- The resampled weight curve of one ray (after optional accumulation). -/
def rayAlphaCurve (resampleF : List ℚ → List ℚ → List ℚ → List ℚ)
    (tvis : List ℚ) (accumulate : Bool) (d w : List ℚ) (r : List (List ℚ)) :
    List ℚ :=
  resampleF tvis d (if accumulate then (accumulateRay w r).2 else w)

/-- The resampled color rows of one ray (after optional accumulation). -/
def rayRgbOf (resampleF : List ℚ → List ℚ → List ℚ → List ℚ)
    (tvis : List ℚ) (accumulate : Bool) (d w : List ℚ) (r : List (List ℚ)) :
    List (List ℚ) :=
  rayRgbRows resampleF tvis d (if accumulate then (accumulateRay w r).1 else r)

/-- The double loop of `visualize_rays` followed by the two stacks:
produces `vis_rgb : [R][L][T][C]` and `vis_alpha : [R][L][T]`
(`torch.stack` inside each level, then `torch.stack(…, dim=1)`). -/
def raysStacks (resampleF : List ℚ → List ℚ → List ℚ → List ℚ)
    (tvis : List ℚ) (accumulate : Bool)
    (dist weights : List (List (List ℚ))) (rgbs : List (List (List (List ℚ)))) :
    List (List (List (List ℚ))) × List (List (List ℚ)) :=
  let perLevel := (dist.zip (weights.zip rgbs)).map fun dwr =>
    let rays := (dwr.1.zip (dwr.2.1.zip dwr.2.2)).map fun dwr2 =>
      (rayRgbOf resampleF tvis accumulate dwr2.1 dwr2.2.1 dwr2.2.2,
       rayAlphaCurve resampleF tvis accumulate dwr2.1 dwr2.2.1 dwr2.2.2)
    (rays.map Prod.fst, rays.map Prod.snd)
  (transposeL [] (perLevel.map Prod.fst), transposeL [] (perLevel.map Prod.snd))

/-- Maximum entry of a flattened tensor (`torch.max(t)`). -/
def maxAll (l : List ℚ) : ℚ := l.foldr max (l.head?.getD 0)

/-- The `renormalize` branch:
`vis_alpha /= torch.max(eps, torch.max(vis_alpha))`. -/
def raysAlphaNorm (renormalize : Bool) (vis_alpha : List (List (List ℚ))) :
    List (List (List ℚ)) :=
  if renormalize then
    let m := max f32eps (maxAll ((vis_alpha.map List.flatten).flatten))
    vis_alpha.map fun row => row.map fun lvl => lvl.map (· / m)
  else vis_alpha

/-- Split a list into chunks of `n` (the row-major regrouping performed by
`reshape` when only neighbouring axes are merged or split). -/
def chunksAux {α : Type} : ℕ → ℕ → List α → List (List α)
  | 0, _, _ => []
  | fuel + 1, n, l =>
      if l.isEmpty then [] else l.take n :: chunksAux fuel n (l.drop n)

/-- `chunks n l` splits `l` into consecutive chunks of length `n`. -/
def chunks {α : Type} (n : ℕ) (l : List α) : List (List α) :=
  chunksAux l.length n l

/-- `vis_rgb * vis_alpha[..., None] + (bg * (1 - vis_alpha))[..., None]` on
the untiled `[R][L][T][C]` / `[R][L][T]` pair. -/
def compositeUntiled (bg : ℚ) (rgb : List (List (List (List ℚ))))
    (alpha : List (List (List ℚ))) : List (List (List (List ℚ))) :=
  List.zipWith (fun rgbRow aRow =>
    List.zipWith (fun rgbLvl aLvl =>
      List.zipWith (fun px a => px.map fun v => v * a + bg * (1 - a))
        rgbLvl aLvl) rgbRow aRow) rgb alpha

/-- The same compositing on the tiled `[rows][T][C]` / `[rows][T]` pair. -/
def compositeTiled (bg : ℚ) (rgb : List (List (List ℚ)))
    (alpha : List (List ℚ)) : List (List (List ℚ)) :=
  List.zipWith (fun rgbRow aRow =>
    List.zipWith (fun px a => px.map fun v => v * a + bg * (1 - a))
      rgbRow aRow) rgb alpha

/-- The tiling step of `visualize_rays`, for one of the two stacked tensors
(generic in the row payload `β`, which is `[C]` colors for `vis_rgb` and `ℚ`
for `vis_alpha`): `torch.tile(t, (1, 1, rep) + …)` then
`reshape((-1,) + shape[2:])`, `reshape((-1, stride) + …)`, concatenation of
one zero row per block, and the final flatten. -/
def tileRows {β : Type} (rep stride t0 : ℕ) (zrow : List β)
    (stacked : List (List (List β))) : List (List β) :=
  let rows3 := (stacked.map fun row => (row.map fun lvl =>
    chunks t0 (List.flatten (List.replicate rep lvl))).flatten).flatten
  ((chunks stride rows3).map (· ++ [zrow])).flatten

/-- The result of `vis.visualize_rays`: the untiled branch keeps the
`[R][L][T][C]` layout, the tiled branch a flat `[rows][T][C]` layout. -/
inductive RaysOut where
  | untiled (vis : List (List (List (List ℚ)))) (alpha : List (List (List ℚ)))
  | tiled (vis : List (List (List ℚ))) (alpha : List (List ℚ))

/-- `vis.visualize_rays(dist, dist_range, weights, rgbs, accumulate,
renormalize, resolution, bg_color)`.  Mirrors the source line by line:
build `dist_vis`, resample every ray (optionally accumulating first), stack
twice, optionally renormalize the alphas, tile-and-pad when `resolution`
exceeds the first stacked dimension, composite over the background, and
finally drop the last row of both results. -/
def visualize_rays (resampleF : List ℚ → List ℚ → List ℚ → List ℚ)
    (dist : List (List (List ℚ))) (distLo distHi : ℚ)
    (weights : List (List (List ℚ))) (rgbs : List (List (List (List ℚ))))
    (accumulate renormalize : Bool) (resolution : ℕ) (bg_color : ℚ) :
    RaysOut :=
  let dist_vis := linspaceQ distLo distHi (resolution + 1)
  let st := raysStacks resampleF dist_vis accumulate dist weights rgbs
  let vis_rgb := st.1
  let vis_alpha := raysAlphaNorm renormalize st.2
  if resolution > vis_rgb.length then
    let rep := resolution /
      (vis_rgb.length * (vis_rgb.head?.getD []).length + 1)
    let stride := rep * (vis_rgb.head?.getD []).length
    let t0 := ((vis_rgb.head?.getD []).head?.getD []).length
    let c0 := (((vis_rgb.head?.getD []).head?.getD []).head?.getD []).length
    let rgbRows := tileRows rep stride t0
      (List.replicate t0 (List.replicate c0 (0:ℚ))) vis_rgb
    let alphaRows := tileRows rep stride t0
      (List.replicate t0 (0:ℚ)) vis_alpha
    .tiled (compositeTiled bg_color rgbRows alphaRows).dropLast
      alphaRows.dropLast
  else
    .untiled (compositeUntiled bg_color vis_rgb vis_alpha).dropLast
      vis_alpha.dropLast

/-! ### `vis.visualize_cmap` -/

/-- A `value` tensor passed to `visualize_cmap`: either 2-D (`[H, W]`, to be
fed through a colormap) or 3-D (`[H, W, 3]`, used directly as colors). -/
inductive Val where
  | v2 : List (List ℚ) → Val
  | v3 : List (List (List ℚ)) → Val

/-- Elementwise application of a scalar function to a `value` tensor. -/
def Val.emap (f : ℚ → ℚ) : Val → Val
  | v2 d => v2 (d.map (·.map f))
  | v3 d => v3 (d.map (·.map (·.map f)))

/-- `value.reshape([-1])`: flatten to a 1-D list. -/
def Val.flat : Val → List ℚ
  | v2 d => d.flatten
  | v3 d => (d.map List.flatten).flatten

/-- `torch.mod` on rationals (sign follows the divisor, as for floats). -/
def qmod (a m : ℚ) : ℚ := a - m * ⌊a / m⌋

/-- Python truthiness of an optional float argument: `None` and `0` are
falsy, everything else truthy (`lo or (...)`, `if modulus:`). -/
def qTruthy : Option ℚ → Bool
  | some q => decide (q ≠ 0)
  | none => false

/-- `vis.visualize_cmap(value, weight, colormap, lo, hi, percentile,
curve_fn, modulus, matte_background)`.

`lo`/`hi` default via `lo or (lo_auto - eps)` — Python truthiness, not a
`None` test.  If `modulus` is truthy the curved value is wrapped as
`mod(value, modulus) / modulus`; otherwise it is scaled to `[0,1]` by the
curved bounds (`nan_to_num` of degenerate divisions is the `/0 = 0`
convention of `ℚ`).  With a colormap the 2-D value is mapped through it and
the alpha channel dropped (`[:, :, :3]`); without one the value must be 3-D
with 3 channels.  Finally the result is matted over the checkerboard when
`matte_background` is set. -/
def visualize_cmap (value : Val) (weight : List (List ℚ))
    (colormap : Option (ℚ → List ℚ))
    (lo hi : Option ℚ) (percentile : ℚ) (curve_fn : ℚ → ℚ)
    (modulus : Option ℚ) (matte_background : Bool) :
    Except String (List (List (List ℚ))) :=
  let pcts := weighted_percentile value.flat weight.flatten
    [50 - percentile / 2, 50 + percentile / 2]
  let lo_auto := pcts.getD 0 0
  let hi_auto := pcts.getD 1 0
  let loV := if qTruthy lo then lo.getD 0 else lo_auto - f32eps
  let hiV := if qTruthy hi then hi.getD 0 else hi_auto + f32eps
  let value1 := value.emap curve_fn
  let loV := curve_fn loV
  let hiV := curve_fn hiV
  let value2 :=
    if qTruthy modulus then
      let m := modulus.getD 0
      value1.emap (fun v => qmod v m / m)
    else
      value1.emap (fun v => clipQ ((v - min loV hiV) / |hiV - loV|) 0 1)
  let colorized : Except String (List (List (List ℚ))) :=
    match colormap with
    | some cmapF =>
        match value2 with
        | .v2 d => .ok (d.map (fun row => row.map (fun v => (cmapF v).take 3)))
        | .v3 _ => .error "colormap expects a 2D value"
    | none =>
        match value2 with
        | .v2 _ => .error "value must have 3 dims"
        | .v3 d =>
            if d.all (fun row => row.all (fun px => px.length = 3)) then .ok d
            else .error "value must have 3 channels"
  colorized.map (fun cz => if matte_background then matte cz weight else cz)

end RefNerf

namespace RefNerf

/-! ## C1 — weighted percentile of 0..9 with uniform weights at p = 50 -/

/-- C1 (counterexample): the claim asserts that `weighted_percentile` on
`values = [0,…,9]` with uniform weights and `p = 50` returns `4.5`, matching
the standard unweighted percentile.  It actually returns `4`: the target
cumulative weight `50 · 10/100 = 5` coincides with the fifth cumulative-sum
knot, whose associated value is `4`. -/
theorem weighted_percentile_uniform_median_cex :
    weighted_percentile [0, 1, 2, 3, 4, 5, 6, 7, 8, 9]
        [1, 1, 1, 1, 1, 1, 1, 1, 1, 1] [50] false = [4] ∧ (4 : ℚ) ≠ 9/2 := by
  have h : List.range (10:ℕ) = [0,1,2,3,4,5,6,7,8,9] := by decide
  constructor
  · norm_num [weighted_percentile, sortIdx, h, List.insertionSort,
      List.orderedInsert, cumsum, interp]
  · norm_num

/-- C1 (amended): with `values = [0,…,9]`, uniform weights and `p = 50`,
`weighted_percentile` returns `4`, which differs from the standard
unweighted percentile (`4.5`) of the same sorted input. -/
theorem weighted_percentile_uniform_median :
    weighted_percentile [0, 1, 2, 3, 4, 5, 6, 7, 8, 9]
        [1, 1, 1, 1, 1, 1, 1, 1, 1, 1] [50] false = [4] := by
  have h : List.range (10:ℕ) = [0,1,2,3,4,5,6,7,8,9] := by decide
  norm_num [weighted_percentile, sortIdx, h, List.insertionSort,
    List.orderedInsert, cumsum, interp]

/-! ## C3 — sorting step: values sorted ascending, weights permuted with
wraparound (index taken modulo the original weight length) -/

/-- Reading a list at the indices `0,…,length-1` reproduces the list. -/
theorem map_getD_range (l : List ℚ) :
    (List.range l.length).map (fun i => l.getD i 0) = l := by
  induction l with
  | nil => rfl
  | cons a t ih =>
      simp only [List.length_cons, List.range_succ_eq_map, List.map_cons,
        List.getD_cons_zero, List.map_map]
      refine congrArg (a :: ·) ?_
      have hfun : ∀ i ∈ List.range t.length,
          ((fun i => (a :: t).getD i 0) ∘ Nat.succ) i = t.getD i 0 := by
        intro i _
        simp [Function.comp, List.getD_cons_succ]
      rw [List.map_congr_left hfun, ih]

/-- C3: with `assume_sorted = false`, `weighted_percentile` sorts the values
ascending (the sorted values are a permutation of the input), permutes the
weights by the same sort permutation with every index reduced modulo the
original weight length (total for every index as soon as the weight list is
nonempty — wraparound instead of failure), and interpolates on the resulting
cumulative-weight curve. -/
theorem weighted_percentile_sort_wraparound (x weight ps : List ℚ)
    (hw : weight ≠ []) :
    ((sortIdx x).map (fun i => x.getD i 0)).Sorted (· ≤ ·) ∧
    ((sortIdx x).map (fun i => x.getD i 0)).Perm x ∧
    (∀ i : ℕ, i % weight.length < weight.length) ∧
    weighted_percentile x weight ps false =
      ps.map (fun p =>
        interp
          (p * ((cumsum ((sortIdx x).map
              (fun i => weight.getD (i % weight.length) 0))).getLast?.getD 0)
            / 100)
          (cumsum ((sortIdx x).map
            (fun i => weight.getD (i % weight.length) 0)))
          ((sortIdx x).map (fun i => x.getD i 0))) := by
  have hr : IsTotal ℕ (fun i j => x.getD i 0 ≤ x.getD j 0) :=
    ⟨fun a b => le_total _ _⟩
  have ht : IsTrans ℕ (fun i j => x.getD i 0 ≤ x.getD j 0) :=
    ⟨fun _ _ _ hab hbc => le_trans hab hbc⟩
  refine ⟨?_, ?_, ?_, ?_⟩
  · have hs : List.Sorted (fun i j => x.getD i 0 ≤ x.getD j 0) (sortIdx x) :=
      List.sorted_insertionSort _ _
    exact List.Pairwise.map _ (fun a b h => h) hs
  · have hp : (sortIdx x).Perm (List.range x.length) :=
      List.perm_insertionSort _ _
    have := hp.map (fun i => x.getD i 0)
    rwa [map_getD_range] at this
  · intro i
    exact Nat.mod_lt _ (List.length_pos.mpr hw)
  · rfl

/-- C3 witness: concrete run with `weight` shorter than `values`
(`len(values) = 3`, `len(weight) = 2`): the call succeeds and the weights
are read with wraparound; the resulting weighted median is `1`. -/
theorem weighted_percentile_sort_wraparound_witness :
    ((sortIdx [3, 1, 2]).map (fun i => [(3:ℚ), 1, 2].getD i 0)).Sorted (· ≤ ·) ∧
    ((sortIdx [3, 1, 2]).map (fun i => [(3:ℚ), 1, 2].getD i 0)).Perm [3, 1, 2] ∧
    (∀ i : ℕ, i % [(10:ℚ), 20].length < [(10:ℚ), 20].length) ∧
    weighted_percentile [3, 1, 2] [10, 20] [50] false =
      [50].map (fun p =>
        interp
          (p * ((cumsum ((sortIdx [3, 1, 2]).map
              (fun i => [(10:ℚ), 20].getD (i % [(10:ℚ), 20].length) 0))).getLast?.getD 0)
            / 100)
          (cumsum ((sortIdx [3, 1, 2]).map
            (fun i => [(10:ℚ), 20].getD (i % [(10:ℚ), 20].length) 0)))
          ((sortIdx [3, 1, 2]).map (fun i => [(3:ℚ), 1, 2].getD i 0))) :=
  weighted_percentile_sort_wraparound [3, 1, 2] [10, 20] [50]
    (List.cons_ne_nil _ _)

/-! ## C2 — matte: checkerboard orientation and compositing formula -/

/-- The code's tile test `(r % (2*width)) // width != 0` agrees with the
claim's form `(r // width) % 2`. -/
theorem bg_mask_div_mod (width r c : ℕ) :
    bg_mask width r c = xor ((r / width) % 2 = 1) ((c / width) % 2 = 1) := by
  unfold bg_mask
  have h1 : ∀ a : ℕ, a % (2 * width) / width = a / width % 2 := by
    intro a
    rw [mul_comm]
    exact Nat.mod_mul_right_div_self a width 2
  have h2 : ∀ a : ℕ, (decide (a % 2 ≠ 0)) = (decide (a % 2 = 1)) := by
    intro a
    rcases Nat.mod_two_eq_zero_or_one a with h | h <;> rw [h] <;> decide
  rw [h1, h1, h2, h2]

/-- One pixel of `matte`, in bounds. -/
theorem matte_pixel (vis : List (List (List ℚ))) (acc : List (List ℚ))
    (dark light : ℚ) (width : ℕ) (r c : ℕ)
    (hr : r < acc.length) (hc : c < (acc.getD r []).length) :
    ((matte vis acc dark light width).getD r []).getD c [] =
      ((vis.getD r []).getD c []).map (fun v =>
        v * ((acc.getD r []).getD c 0) +
          (if bg_mask width r c then light else dark) *
            (1 - (acc.getD r []).getD c 0)) := by
  have hr' : r < (matte vis acc dark light width).length := by
    simpa [matte] using hr
  rw [List.getD_eq_getElem _ _ hr']
  unfold matte
  rw [List.getElem_mapIdx]
  have hrg : acc.getD r [] = acc[r] := List.getD_eq_getElem _ _ hr
  have hc' : c < (acc[r]).length := by rw [← hrg]; exact hc
  have hc'' : c < ((acc[r]).mapIdx fun c a =>
      let bg : ℚ := if bg_mask width r c then light else dark
      ((vis.getD r []).getD c []).map fun v => v * a + bg * (1 - a)).length := by
    simpa using hc'
  rw [List.getD_eq_getElem _ _ hc'', List.getElem_mapIdx]
  rw [hrg, List.getD_eq_getElem _ _ hc']

/-- C2 (counterexample): at pixel `(0,0)` the claim's parity XOR
`((0 // 8) % 2) XOR ((0 // 8) % 2)` is false, so the claim predicts the
light background (`1.0`) there; the code produces the dark background
(`0.8`) because `torch.where(bg_mask, light, dark)` picks `light` where the
XOR is *true*. -/
theorem matte_light_on_xor_false_cex :
    (xor ((0 / 8) % 2 = 1) ((0 / 8) % 2 = 1) = false) ∧
    matte [[[0]]] [[0]] (4/5) 1 8 = [[[4/5]]] ∧ ((4:ℚ)/5 ≠ 1) := by
  refine ⟨by decide, ?_, by norm_num⟩
  norm_num [matte, bg_mask, List.mapIdx_cons]

/-- C2 (amended): `matte` builds a checkerboard in which pixel `(r,c)` is
light exactly when `((r // width) % 2) XOR ((c // width) % 2)` is *true*
(not false, as claimed) and dark otherwise, and returns
`vis * acc + background * (1 - acc)` with `acc` broadcast over the color
channels; with `acc` identically 1 the result is `vis`, and with `acc`
identically 0 each pixel consists of the checkerboard background value. -/
theorem matte_spec (vis : List (List (List ℚ))) (acc : List (List ℚ))
    (dark light : ℚ) (width : ℕ) :
    (∀ r c, r < acc.length → c < (acc.getD r []).length →
      ((matte vis acc dark light width).getD r []).getD c [] =
        ((vis.getD r []).getD c []).map (fun v =>
          v * ((acc.getD r []).getD c 0) +
            (if xor ((r / width) % 2 = 1) ((c / width) % 2 = 1) then light
             else dark) * (1 - (acc.getD r []).getD c 0))) ∧
    ((acc.length = vis.length ∧
        (∀ r, r < acc.length → (acc.getD r []).length = (vis.getD r []).length)) →
      (∀ r c, r < acc.length → c < (acc.getD r []).length →
        (acc.getD r []).getD c 0 = 1) →
      matte vis acc dark light width = vis) ∧
    ((∀ r c, r < acc.length → c < (acc.getD r []).length →
        (acc.getD r []).getD c 0 = 0) →
      ∀ r c, r < acc.length → c < (acc.getD r []).length →
        ((matte vis acc dark light width).getD r []).getD c [] =
          ((vis.getD r []).getD c []).map (fun _ =>
            if xor ((r / width) % 2 = 1) ((c / width) % 2 = 1) then light
            else dark)) := by
  refine ⟨?_, ?_, ?_⟩
  · intro r c hr hc
    rw [matte_pixel vis acc dark light width r c hr hc, bg_mask_div_mod]
  · rintro ⟨hlen, hrow⟩ hone
    apply List.ext_getElem
    · simpa [matte] using hlen
    · intro r hr1 hr2
      have hr : r < acc.length := by simpa [matte] using hr1
      apply List.ext_getElem
      · have := hrow r hr
        simp only [matte, List.getElem_mapIdx, List.length_mapIdx]
        rw [List.getD_eq_getElem _ _ hr] at this
        rw [this, List.getD_eq_getElem _ _ hr2]
      · intro c hc1 hc2
        have hc : c < (acc.getD r []).length := by
          rw [List.getD_eq_getElem _ _ hr]
          simpa [matte] using hc1
        have hpix := matte_pixel vis acc dark light width r c hr hc
        rw [List.getD_eq_getElem _ _ hr1] at hpix
        have hmr : r < (matte vis acc dark light width).length := by
          simpa [matte] using hr
        rw [List.getD_eq_getElem _ _ hc1] at hpix
        rw [hpix, hone r c hr hc]
        have hvr : (vis.getD r []).getD c [] = vis[r][c] := by
          rw [List.getD_eq_getElem _ _ hr2, List.getD_eq_getElem _ _ hc2]
        rw [hvr]
        simp
  · intro hzero r c hr hc
    rw [matte_pixel vis acc dark light width r c hr hc, bg_mask_div_mod,
      hzero r c hr hc]
    simp

/-- C2 witness: concrete checks of the amended statement — compositing with
`acc = 1` returns `vis` unchanged, and with `acc = 0` pixel `(0,0)` is the
dark background `0.8`. -/
theorem matte_spec_witness :
    matte [[[2]]] [[1]] (4/5) 1 8 = [[[2]]] ∧
    ((matte [[[3]]] [[0]] (4/5) 1 8).getD 0 []).getD 0 [] = [4/5] := by
  constructor
  · refine (matte_spec [[[2]]] [[1]] (4/5) 1 8).2.1 ⟨rfl, ?_⟩ ?_
    · intro r hr
      simp only [List.length_cons, List.length_nil] at hr
      interval_cases r
      simp
    · intro r c hr hc
      simp only [List.length_cons, List.length_nil] at hr
      interval_cases r
      simp only [List.getD_cons_zero, List.length_cons, List.length_nil] at hc
      interval_cases c
      simp
  · have h := (matte_spec [[[3]]] [[0]] (4/5) 1 8).2.2 ?_ 0 0 (by simp) (by simp)
    · simpa using h
    · intro r c hr hc
      simp only [List.length_cons, List.length_nil] at hr
      interval_cases r
      simp only [List.getD_cons_zero, List.length_cons, List.length_nil] at hc
      interval_cases c
      simp

/-! ## C7 — modulus overrides lo/hi/percentile; with modulus = 1 an in-range
3-channel value passes through unchanged (before matting) -/

/-- C7: when a nonzero `modulus` is given, the output of `visualize_cmap` is
independent of `lo`, `hi` and `percentile`; and with `modulus = 1`, no
colormap, the identity curve and a 3-channel value whose entries already lie
in `[0,1)`, the colorized image (matting disabled) is the value itself. -/
theorem visualize_cmap_modulus :
    (∀ (value : Val) (weight : List (List ℚ)) (colormap : Option (ℚ → List ℚ))
        (lo₁ hi₁ : Option ℚ) (p₁ : ℚ) (lo₂ hi₂ : Option ℚ) (p₂ : ℚ)
        (curve : ℚ → ℚ) (m : ℚ) (mb : Bool), m ≠ 0 →
      visualize_cmap value weight colormap lo₁ hi₁ p₁ curve (some m) mb =
        visualize_cmap value weight colormap lo₂ hi₂ p₂ curve (some m) mb) ∧
    (∀ (d : List (List (List ℚ))) (weight : List (List ℚ))
        (lo hi : Option ℚ) (p : ℚ),
      (∀ row ∈ d, ∀ px ∈ row, px.length = 3) →
      (∀ row ∈ d, ∀ px ∈ row, ∀ v ∈ px, 0 ≤ v ∧ v < 1) →
      visualize_cmap (Val.v3 d) weight none lo hi p (fun v => v) (some 1)
          false = Except.ok d) := by
  constructor
  · intro value weight colormap lo₁ hi₁ p₁ lo₂ hi₂ p₂ curve m mb hm
    have hq : qTruthy (some m) = true := by simp [qTruthy, hm]
    simp only [visualize_cmap, hq, if_true]
  · intro d weight lo hi p hch hrange
    have hq : qTruthy (some 1) = true := by norm_num [qTruthy]
    have hid : List.map (fun x => List.map (fun x =>
        List.map (fun v : ℚ => v) x) x) d = d := by
      simp [List.map_id']
    have hmap : List.map (fun x => List.map (fun x =>
        List.map (fun v => qmod v 1 / 1) x) x) d = d := by
      refine List.map_congr_left ?_ |>.trans (List.map_id d)
      intro row hrow
      refine (List.map_congr_left ?_).trans (List.map_id row)
      intro px hpx
      refine (List.map_congr_left ?_).trans (List.map_id px)
      intro v hv
      have h01 := hrange row hrow px hpx v hv
      have hfl : ⌊v⌋ = 0 := Int.floor_eq_zero_iff.mpr (Set.mem_Ico.mpr h01)
      simp [qmod, hfl]
    have hall : d.all (fun row => row.all (fun px => px.length = 3)) = true := by
      rw [List.all_eq_true]
      intro row hrow
      rw [List.all_eq_true]
      intro px hpx
      exact decide_eq_true (hch row hrow px hpx)
    simp only [visualize_cmap, hq, if_true, Val.emap, Option.getD_some, hid,
      hmap, hall, Except.map, Bool.false_eq_true, if_false]

/-- C7 witness: concrete instantiations — changing `lo`, `hi`, `percentile`
under `modulus = 1` leaves the output unchanged, and a 3-channel in-range
value passes through `modulus = 1` untouched. -/
theorem visualize_cmap_modulus_witness :
    (visualize_cmap (Val.v3 [[[0, 1/2, 1/4]]]) [[1]] none (some (1/2))
        (some 2) 99 (fun v => v) (some 1) false =
      visualize_cmap (Val.v3 [[[0, 1/2, 1/4]]]) [[1]] none none none 50
        (fun v => v) (some 1) false) ∧
    (visualize_cmap (Val.v3 [[[0, 1/2, 1/4]]]) [[1]] none (some (1/2))
        (some 2) 99 (fun v => v) (some 1) false =
      Except.ok [[[0, 1/2, 1/4]]]) := by
  constructor
  · exact visualize_cmap_modulus.1 (Val.v3 [[[0, 1/2, 1/4]]]) [[1]] none
      (some (1/2)) (some 2) 99 none none 50 (fun v => v) 1 false one_ne_zero
  · refine visualize_cmap_modulus.2 [[[0, 1/2, 1/4]]] [[1]] (some (1/2))
      (some 2) 99 ?_ ?_
    · intro row hrow px hpx
      simp only [List.mem_singleton] at hrow
      subst hrow
      simp only [List.mem_singleton] at hpx
      subst hpx
      rfl
    · intro row hrow px hpx v hv
      simp only [List.mem_singleton] at hrow
      subst hrow
      simp only [List.mem_singleton] at hpx
      subst hpx
      simp only [List.mem_cons, List.not_mem_nil, or_false] at hv
      rcases hv with rfl | rfl | rfl <;> norm_num

/-! ## C10 — lo/hi are tested by Python truthiness: an explicit zero bound is
ignored and the percentile-derived bound used instead -/

/-- C10: `visualize_cmap` resolves `lo` and `hi` with `lo or (...)` /
`hi or (...)`, i.e. by truthiness rather than by presence: passing an
explicit bound equal to `0` produces exactly the same output as not passing
that bound at all, for every input. -/
theorem visualize_cmap_zero_bound_ignored (value : Val)
    (weight : List (List ℚ)) (colormap : Option (ℚ → List ℚ))
    (lo hi : Option ℚ) (percentile : ℚ) (curve : ℚ → ℚ)
    (modulus : Option ℚ) (mb : Bool) :
    (visualize_cmap value weight colormap (some 0) hi percentile curve
        modulus mb =
      visualize_cmap value weight colormap none hi percentile curve
        modulus mb) ∧
    (visualize_cmap value weight colormap lo (some 0) percentile curve
        modulus mb =
      visualize_cmap value weight colormap lo none percentile curve
        modulus mb) := by
  have hq : qTruthy (some 0) = false := by norm_num [qTruthy]
  have hq' : qTruthy none = false := rfl
  constructor <;> simp only [visualize_cmap, hq, hq', Bool.false_eq_true,
    if_false]

/-! ## Dot-product lemmas for the `color_correct` feature rows -/

theorem dotL_nil_right (l : List ℚ) : dotL l [] = 0 := by
  cases l <;> rfl

theorem dotL_append (a b c d : List ℚ) (h : a.length = c.length) :
    dotL (a ++ b) (c ++ d) = dotL a c + dotL b d := by
  induction a generalizing c with
  | nil =>
      cases c with
      | nil => simp [dotL]
      | cons y ys => simp at h
  | cons x xs ih =>
      cases c with
      | nil => simp at h
      | cons y ys =>
          rw [List.cons_append, List.cons_append]
          show x * y + dotL (xs ++ b) (ys ++ d) = x * y + dotL xs ys + dotL b d
          rw [ih ys (by simpa using h)]
          ring

theorem dotL_zero_right (l w : List ℚ) (h : ∀ y ∈ w, y = 0) : dotL l w = 0 := by
  induction l generalizing w with
  | nil => rfl
  | cons x xs ih =>
      cases w with
      | nil => rfl
      | cons y ys =>
          have hy : y = 0 := h y (by simp)
          have hys : ∀ z ∈ ys, z = 0 := fun z hz => h z (by simp [hz])
          simp [dotL, hy, ih ys hys]

theorem dotL_unit {C : ℕ} (l : List (Fin C)) (px : Fin C → ℚ) (c : Fin C)
    (hnd : l.Nodup) (hc : c ∈ l) :
    dotL (l.map px) (l.map fun c2 => if c2 = c then 1 else 0) = px c := by
  induction l with
  | nil => simp at hc
  | cons a t ih =>
      rcases List.mem_cons.mp hc with rfl | hct
      · have hzero : ∀ y ∈ t.map fun c2 => if c2 = c then (1:ℚ) else 0, y = 0 := by
          intro y hy
          rcases List.mem_map.mp hy with ⟨c2, hc2, rfl⟩
          have hne : c2 ≠ c := fun h => (List.nodup_cons.mp hnd).1 (h ▸ hc2)
          simp [hne]
        simp [dotL, dotL_zero_right _ _ hzero]
      · have hne : a ≠ c := fun h => (List.nodup_cons.mp hnd).1 (h ▸ hct)
        simp [dotL, hne, ih (List.nodup_cons.mp hnd).2 hct]

/-- The feature row of a pixel dotted with `unitVec C c` reads off channel
`c` of the pixel: the masked linear system solved by `color_correct` with
`ref = img` is consistent. -/
theorem dotL_a_mat_row_unitVec {C : ℕ} (px : Fin C → ℚ) (c : Fin C) :
    dotL (a_mat_row px) (unitVec C c) = px c := by
  have hqlen :
      (((List.finRange C).flatMap fun c1 =>
          ((List.finRange C).drop c1.val).map fun c2 => px c1 * px c2)).length
      = (((List.finRange C).flatMap fun c1 =>
          ((List.finRange C).drop c1.val).map fun _ => (0:ℚ))).length := by
    rw [List.length_flatMap, List.length_flatMap]
    congr 1
    refine List.map_congr_left fun c1 _ => ?_
    simp [Function.comp]
  have hqlen2 :
      ((((List.finRange C).flatMap fun c1 =>
          ((List.finRange C).drop c1.val).map fun c2 => px c1 * px c2))
        ++ (List.finRange C).map px).length
      = ((((List.finRange C).flatMap fun c1 =>
          ((List.finRange C).drop c1.val).map fun _ => (0:ℚ)))
        ++ (List.finRange C).map fun c2 => if c2 = c then (1:ℚ) else 0).length := by
    rw [List.length_append, List.length_append, hqlen]
    simp
  unfold a_mat_row unitVec
  rw [dotL_append _ _ _ _ hqlen2, dotL_append _ _ _ _ hqlen]
  have hquad : dotL
      ((List.finRange C).flatMap fun c1 =>
        ((List.finRange C).drop c1.val).map fun c2 => px c1 * px c2)
      ((List.finRange C).flatMap fun c1 =>
        ((List.finRange C).drop c1.val).map fun _ => (0:ℚ)) = 0 := by
    apply dotL_zero_right
    intro y hy
    rcases List.mem_flatMap.mp hy with ⟨c1, _, hy2⟩
    rcases List.mem_map.mp hy2 with ⟨c2, _, rfl⟩
    rfl
  have hlin : dotL ((List.finRange C).map px)
      ((List.finRange C).map fun c2 => if c2 = c then (1:ℚ) else 0) = px c :=
    dotL_unit _ px c (List.nodup_finRange C) (List.mem_finRange c)
  have hbias : dotL [(1:ℚ)] [(0:ℚ)] = 0 := by simp [dotL]
  rw [hquad, hlin, hbias]
  ring

/-! ## C4 — identity fixed point of color correction -/

/-- `clip(x, 0, 1)` is the identity on `[0, 1]`. -/
theorem clipQ_eq_self (x : ℚ) (h0 : 0 ≤ x) (h1 : x ≤ 1) : clipQ x 0 1 = x := by
  unfold clipQ
  rw [max_eq_left h0, min_eq_left h1]

/-- One `color_correct` iteration with `ref = img` and no saturated pixels
leaves the image unchanged, for any solver that returns exact solutions of
consistent systems. -/
theorem ccStep_id_fixed {C N : ℕ}
    (solve : (Fin N → List ℚ) → (Fin N → ℚ) → List ℚ)
    (img : Fin N → Fin C → ℚ)
    (hsolve : ∀ (A : Fin N → List ℚ) (b : Fin N → ℚ),
      (∃ w, ∀ j, dotL (A j) w = b j) → ∀ j, dotL (A j) (solve A b) = b j)
    (himg : ∀ j c, (1:ℚ)/510 ≤ img j c ∧ img j c ≤ 1 - 1/510) :
    ccStep solve (1/510) (fun j c => is_unclipped (1/510) (img j c)) img img
      = img := by
  have hmask : ∀ j c, is_unclipped (1/510) (img j c) = true := by
    intro j c
    unfold is_unclipped
    simp only [Bool.and_eq_true, decide_eq_true_eq]
    exact ⟨(himg j c).1, (himg j c).2⟩
  funext j c
  unfold ccStep
  simp only [hmask, Bool.and_self, Bool.true_and, if_true]
  have hcons : ∃ w, ∀ j', dotL (a_mat_row (img j')) w = img j' c :=
    ⟨unitVec C c, fun j' => dotL_a_mat_row_unitVec (img j') c⟩
  rw [hsolve _ _ hcons j]
  apply clipQ_eq_self
  · exact le_trans (by norm_num) (himg j c).1
  · exact le_trans (himg j c).2 (by norm_num)

/-- C4: for every image with no saturated pixels (all values strictly inside
`[eps, 1-eps]` for the default `eps = 0.5/255`), `color_correct(img, img)`
returns `img` unchanged after any number of iterations — the identity warp
is a fixed point — for any least-squares solver that solves consistent
systems exactly. -/
theorem color_correct_identity_fixed_point
    (solve : (N : ℕ) → (Fin N → List ℚ) → (Fin N → ℚ) → List ℚ)
    (img : Img) (n : ℕ)
    (hsolve : ∀ (A : Fin img.N → List ℚ) (b : Fin img.N → ℚ),
      (∃ w, ∀ j, dotL (A j) w = b j) →
        ∀ j, dotL (A j) (solve img.N A b) = b j)
    (himg : ∀ j c, (1:ℚ)/510 < img.data j c ∧ img.data j c < 1 - 1/510) :
    color_correct solve img img n (1/510) = .ok img := by
  unfold color_correct
  rw [dif_pos rfl, dif_pos rfl]
  have hcast : (fun j c => img.data (Fin.cast rfl j) (Fin.cast rfl c))
      = img.data := by
    funext j c
    rfl
  rw [hcast]
  have himg' : ∀ j c, (1:ℚ)/510 ≤ img.data j c ∧ img.data j c ≤ 1 - 1/510 :=
    fun j c => ⟨le_of_lt (himg j c).1, le_of_lt (himg j c).2⟩
  have hfix : color_correct_mat (solve img.N) n (1/510) img.data img.data
      = img.data := by
    unfold color_correct_mat
    induction n with
    | zero => rfl
    | succ m ih =>
        rw [Function.iterate_succ_apply', ih]
        exact ccStep_id_fixed (solve img.N) img.data hsolve himg'
  rw [hfix]

/-- A least-squares solver used only by the C4 witness: on a consistent
system it returns a chosen exact solution, otherwise the zero vector. -/
noncomputable def chooseSolve (N : ℕ) (A : Fin N → List ℚ) (b : Fin N → ℚ) :
    List ℚ :=
  @dite _ (∃ w, ∀ j, dotL (A j) w = b j) (Classical.propDecidable _)
    (fun h => h.choose) (fun _ => [])

theorem chooseSolve_spec (N : ℕ) (A : Fin N → List ℚ) (b : Fin N → ℚ)
    (h : ∃ w, ∀ j, dotL (A j) w = b j) :
    ∀ j, dotL (A j) (chooseSolve N A b) = b j := by
  intro j
  unfold chooseSolve
  rw [dif_pos h]
  exact h.choose_spec j

/-- C4 witness: a concrete one-pixel, one-channel image with value `1/2`
(strictly inside the unsaturated range) is returned unchanged. -/
theorem color_correct_identity_fixed_point_witness :
    color_correct chooseSolve ⟨1, 1, fun _ _ => 1/2⟩ ⟨1, 1, fun _ _ => 1/2⟩
      5 (1/510) = .ok ⟨1, 1, fun _ _ => 1/2⟩ :=
  color_correct_identity_fixed_point chooseSolve ⟨1, 1, fun _ _ => 1/2⟩ 5
    (fun A b h => chooseSolve_spec 1 A b h)
    (fun _ _ => by norm_num)

/-! ## C5 — output of color correction is clipped to [0,1] and keeps the
input shape -/

/-- C5: whenever `color_correct` returns an image (at least one iteration
requested), that image has exactly the channel and pixel counts of `img`,
and every element lies in `[0, 1]` — each iteration ends with
`clip(a_mat @ warp, 0, 1)`. -/
theorem color_correct_output_clipped
    (solve : (N : ℕ) → (Fin N → List ℚ) → (Fin N → ℚ) → List ℚ)
    (img ref : Img) (n : ℕ) (eps : ℚ) (res : Img)
    (hn : 1 ≤ n)
    (hres : color_correct solve img ref n eps = .ok res) :
    res.C = img.C ∧ res.N = img.N ∧
      ∀ j c, 0 ≤ res.data j c ∧ res.data j c ≤ 1 := by
  unfold color_correct at hres
  by_cases hC : img.C = ref.C
  · rw [dif_pos hC] at hres
    by_cases hN : img.N = ref.N
    · rw [dif_pos hN] at hres
      have hres' := (Except.ok.injEq _ _).mp hres
      subst hres'
      refine ⟨rfl, rfl, ?_⟩
      intro j c
      obtain ⟨m, rfl⟩ : ∃ m, n = m + 1 := ⟨n - 1, by omega⟩
      unfold color_correct_mat
      rw [Function.iterate_succ_apply']
      unfold ccStep
      constructor
      · exact le_min (le_max_right _ _) (by norm_num)
      · exact min_le_right _ _
    · rw [dif_neg hN] at hres
      exact absurd hres (by simp)
  · rw [dif_neg hC] at hres
    exact absurd hres (by simp)

/-- C5 witness: with a trivial solver that returns the empty coefficient
vector, one iteration on a concrete one-pixel image yields the zero image,
whose entries are inside `[0, 1]` and whose shape matches the input. -/
theorem color_correct_output_clipped_witness :
    (⟨1, 1, fun _ _ => 0⟩ : Img).C = (⟨1, 1, fun _ _ => (1:ℚ)/2⟩ : Img).C ∧
    (⟨1, 1, fun _ _ => 0⟩ : Img).N = (⟨1, 1, fun _ _ => (1:ℚ)/2⟩ : Img).N ∧
    ∀ j c, 0 ≤ (⟨1, 1, fun _ _ => 0⟩ : Img).data j c ∧
      (⟨1, 1, fun _ _ => 0⟩ : Img).data j c ≤ 1 := by
  refine color_correct_output_clipped (fun _ _ _ => [])
    ⟨1, 1, fun _ _ => 1/2⟩ ⟨1, 1, fun _ _ => 1/2⟩ 1 (1/510)
    ⟨1, 1, fun _ _ => 0⟩ (le_refl 1) ?_
  unfold color_correct
  rw [dif_pos rfl, dif_pos rfl]
  refine congrArg Except.ok ?_
  refine congrArg (Img.mk 1 1) ?_
  funext j c
  unfold color_correct_mat
  rw [Function.iterate_one]
  unfold ccStep
  show clipQ (dotL (a_mat_row _) []) 0 1 = 0
  rw [dotL_nil_right]
  unfold clipQ
  norm_num

/-! ## C6 — channel-count mismatch fails before any pixel computation -/

/-- C6: `color_correct` fails whenever the channel count of `img` differs
from that of `ref`; the check precedes the iteration loop, so the error
result carries no partial image. -/
theorem color_correct_channel_mismatch
    (solve : (N : ℕ) → (Fin N → List ℚ) → (Fin N → ℚ) → List ℚ)
    (img ref : Img) (n : ℕ) (eps : ℚ) (h : img.C ≠ ref.C) :
    color_correct solve img ref n eps = .error "channels must match" := by
  unfold color_correct
  rw [dif_neg h]

/-- C6 witness: a 3-channel image against a 4-channel reference fails. -/
theorem color_correct_channel_mismatch_witness :
    color_correct (fun _ _ _ => []) ⟨3, 1, fun _ _ => 0⟩ ⟨4, 1, fun _ _ => 0⟩
      5 (1/510) = .error "channels must match" :=
  color_correct_channel_mismatch (fun _ _ _ => [])
    ⟨3, 1, fun _ _ => 0⟩ ⟨4, 1, fun _ _ => 0⟩ 5 (1/510) (by decide)



/-! ## C8 — the sRGB conversions and their branch thresholds -/

/-- `((5/12)`-power followed by the 12th power is the 5th power. -/
theorem rpow512_pow12 (a : ℝ) (ha : 0 ≤ a) :
    (a ^ ((5:ℝ)/12)) ^ (12:ℕ) = a ^ (5:ℕ) := by
  rw [← Real.rpow_natCast (a ^ ((5:ℝ)/12)) 12, ← Real.rpow_mul ha]
  rw [show ((5:ℝ)/12 * ((12:ℕ):ℝ)) = ((5:ℕ):ℝ) by norm_num]
  exact Real.rpow_natCast a 5

theorem srgbCross_pow5 : srgbCross ^ (5:ℕ) = ((1909:ℝ)/21100) ^ (12:ℕ) := by
  unfold srgbCross
  rw [← Real.rpow_natCast ((((1909:ℝ)/21100)) ^ ((12:ℝ)/5)) 5,
    ← Real.rpow_mul (by norm_num)]
  rw [show ((12:ℝ)/5 * ((5:ℕ):ℝ)) = ((12:ℕ):ℝ) by norm_num]
  exact Real.rpow_natCast _ 12

theorem srgbCross_rpow512 : srgbCross ^ ((5:ℝ)/12) = (1909:ℝ)/21100 := by
  unfold srgbCross
  rw [← Real.rpow_mul (by norm_num)]
  rw [show ((12:ℝ)/5 * (5/12)) = 1 by norm_num, Real.rpow_one]

theorem srgbCross_nonneg : 0 ≤ srgbCross :=
  Real.rpow_nonneg (by norm_num) _

/-- The linear-branch threshold lies strictly below `srgbCross`. -/
theorem th_lt_srgbCross : (0.0031308 : ℝ) < srgbCross := by
  have h5 : ((0.0031308:ℝ)) ^ (5:ℕ) < srgbCross ^ (5:ℕ) := by
    rw [srgbCross_pow5]
    norm_num
  exact lt_of_pow_lt_pow_left₀ 5 srgbCross_nonneg h5

/-- C8 (counterexample): at `x = 0.003130805` — inside `[0,1]` and far above
the epsilon clamp — the round trip `srgbToLinear (linearToSrgb x)` does not
return `x`: `x` is just above the linear-branch threshold `0.0031308`, so it
is encoded by the power branch, but its sRGB image is still `≤ 0.04045`, so
the decoder takes the *linear* branch and lands strictly below `x`. -/
theorem srgb_roundtrip_cex :
    ((3130805/10^9 : ℝ) ∈ Set.Icc (0:ℝ) 1) ∧
    f32epsR < 3130805/10^9 ∧
    srgb_to_linear (linear_to_srgb (3130805/10^9)) < 3130805/10^9 := by
  refine ⟨by constructor <;> norm_num, by unfold f32epsR; norm_num, ?_⟩
  have hq512 : ((3130805/10^9 : ℝ)) ^ ((5:ℝ)/12) ≤ 1909/21100 := by
    have h12 : (((3130805/10^9:ℝ)) ^ ((5:ℝ)/12)) ^ (12:ℕ)
        ≤ ((1909/21100:ℝ)) ^ (12:ℕ) := by
      rw [rpow512_pow12 _ (by norm_num)]
      norm_num
    exact le_of_pow_le_pow_left₀ (by norm_num) (by norm_num) h12
  have hfwd : linear_to_srgb (3130805/10^9)
      = (211 * ((3130805/10^9 : ℝ)) ^ ((5:ℝ)/12) - 11) / 200 := by
    unfold linear_to_srgb
    rw [if_neg (by norm_num)]
    rw [max_eq_right (by unfold f32epsR; norm_num)]
  have hy : linear_to_srgb (3130805/10^9) ≤ 0.04045 := by
    rw [hfwd]
    have : (211:ℝ) * ((3130805/10^9 : ℝ)) ^ ((5:ℝ)/12) ≤ 211 * (1909/21100) :=
      mul_le_mul_of_nonneg_left hq512 (by norm_num)
    rw [div_le_iff₀ (by norm_num : (0:ℝ) < 200)]
    nlinarith
  have hback : srgb_to_linear (linear_to_srgb (3130805/10^9))
      = 25 / 323 * linear_to_srgb (3130805/10^9) := by
    unfold srgb_to_linear
    rw [if_pos hy]
  rw [hback]
  have : (25:ℝ)/323 * linear_to_srgb (3130805/10^9) ≤ 25/323 * 0.04045 :=
    mul_le_mul_of_nonneg_left hy (by norm_num)
  calc (25:ℝ)/323 * linear_to_srgb (3130805/10^9)
      ≤ 25/323 * 0.04045 := this
    _ < 3130805/10^9 := by norm_num

/-- C8 (amended): the two conversions are mutually inverse on `[0,1]`
*except on the narrow windows straddling the branch thresholds*:
`srgbToLinear (linearToSrgb x) = x` for linear `x` outside
`(0.0031308, (19.09/211)^(12/5)]`, and `linearToSrgb (srgbToLinear x) = x`
for sRGB `x` outside `(12.92 · 0.0031308, 0.04045] = (0.040449936, 0.04045]`.
(The epsilon clamps never bite on `[0,1]`: both power branches operate on
arguments above `0.09`, far beyond machine epsilon.) -/
theorem srgb_linear_inverse (x : ℝ) (hx0 : 0 ≤ x) (_hx1 : x ≤ 1) :
    ((x ≤ 0.0031308 ∨ srgbCross < x) →
      srgb_to_linear (linear_to_srgb x) = x) ∧
    ((x ≤ 0.040449936 ∨ 0.04045 < x) →
      linear_to_srgb (srgb_to_linear x) = x) := by
  constructor
  · rintro (hlin | hpow)
    · have hfwd : linear_to_srgb x = 323 / 25 * x := by
        unfold linear_to_srgb
        rw [if_pos hlin]
      have hsmall : 323 / 25 * x ≤ (0.04045 : ℝ) := by nlinarith
      rw [hfwd]
      unfold srgb_to_linear
      rw [if_pos hsmall]
      ring
    · have hxth : ¬ x ≤ (0.0031308 : ℝ) :=
        not_le.mpr (lt_trans th_lt_srgbCross hpow)
      have hxeps : f32epsR ≤ x := by
        have h1 : f32epsR < (0.0031308 : ℝ) := by unfold f32epsR; norm_num
        linarith [lt_trans th_lt_srgbCross hpow]
      have hq : (1909:ℝ)/21100 < x ^ ((5:ℝ)/12) := by
        have := Real.rpow_lt_rpow srgbCross_nonneg hpow
          (by norm_num : (0:ℝ) < 5/12)
        rwa [srgbCross_rpow512] at this
      have hfwd : linear_to_srgb x = (211 * x ^ ((5:ℝ)/12) - 11) / 200 := by
        unfold linear_to_srgb
        rw [if_neg hxth, max_eq_right hxeps]
      have hy : ¬ (211 * x ^ ((5:ℝ)/12) - 11) / 200 ≤ (0.04045 : ℝ) := by
        rw [not_le, lt_div_iff₀ (by norm_num : (0:ℝ) < 200)]
        nlinarith
      rw [hfwd]
      unfold srgb_to_linear
      rw [if_neg hy]
      have hu : (200 * ((211 * x ^ ((5:ℝ)/12) - 11) / 200) + 11) / 211
          = x ^ ((5:ℝ)/12) := by ring
      rw [hu]
      have hueps : f32epsR ≤ x ^ ((5:ℝ)/12) := by
        have h1 : f32epsR < (1909:ℝ)/21100 := by unfold f32epsR; norm_num
        linarith
      rw [max_eq_right hueps, ← Real.rpow_mul hx0,
        show ((5:ℝ)/12 * (12/5)) = 1 by norm_num, Real.rpow_one]
  · rintro (hlin | hpow)
    · have hle : x ≤ (0.04045 : ℝ) := le_trans hlin (by norm_num)
      have hback : srgb_to_linear x = 25 / 323 * x := by
        unfold srgb_to_linear
        rw [if_pos hle]
      have hsm : 25 / 323 * x ≤ (0.0031308 : ℝ) := by nlinarith
      rw [hback]
      unfold linear_to_srgb
      rw [if_pos hsm]
      ring
    · have hnle : ¬ x ≤ (0.04045 : ℝ) := not_le.mpr hpow
      have hu : (1909:ℝ)/21100 < (200 * x + 11) / 211 := by
        rw [lt_div_iff₀ (by norm_num : (0:ℝ) < 211)]
        nlinarith
      have hueps : f32epsR ≤ (200 * x + 11) / 211 := by
        have h1 : f32epsR < (1909:ℝ)/21100 := by unfold f32epsR; norm_num
        linarith
      have hback : srgb_to_linear x = ((200 * x + 11) / 211) ^ ((12:ℝ)/5) := by
        unfold srgb_to_linear
        rw [if_neg hnle, max_eq_right hueps]
      have hlin_gt : (0.0031308:ℝ) < ((200 * x + 11) / 211) ^ ((12:ℝ)/5) := by
        have h2 := Real.rpow_lt_rpow (by norm_num : (0:ℝ) ≤ 1909/21100) hu
          (by norm_num : (0:ℝ) < 12/5)
        have h3 : srgbCross < ((200 * x + 11) / 211) ^ ((12:ℝ)/5) := by
          unfold srgbCross
          exact h2
        exact lt_trans th_lt_srgbCross h3
      rw [hback]
      unfold linear_to_srgb
      rw [if_neg (not_le.mpr hlin_gt)]
      have hepslin : f32epsR ≤ ((200 * x + 11) / 211) ^ ((12:ℝ)/5) := by
        have h1 : f32epsR < (0.0031308:ℝ) := by unfold f32epsR; norm_num
        linarith
      have hU0 : (0:ℝ) ≤ (200 * x + 11) / 211 := by
        have : (0:ℝ) < 1909/21100 := by norm_num
        linarith
      rw [max_eq_right hepslin, ← Real.rpow_mul hU0,
        show ((12:ℝ)/5 * (5/12)) = 1 by norm_num, Real.rpow_one]
      ring

/-! ## Chunking and flattening lemmas for the `visualize_rays` reshapes -/

theorem chunksAux_congr {α : Type} (n : ℕ) (hn : 0 < n) :
    ∀ (fuel₁ fuel₂ : ℕ) (l : List α), l.length ≤ fuel₁ → l.length ≤ fuel₂ →
      chunksAux fuel₁ n l = chunksAux fuel₂ n l := by
  intro fuel₁
  induction fuel₁ with
  | zero =>
      intro fuel₂ l h1 h2
      have hl : l = [] := List.eq_nil_of_length_eq_zero (Nat.le_zero.mp h1)
      subst hl
      cases fuel₂ with
      | zero => rfl
      | succ f => simp [chunksAux]
  | succ f ih =>
      intro fuel₂ l h1 h2
      cases l with
      | nil =>
          cases fuel₂ with
          | zero => simp [chunksAux]
          | succ f2 => simp [chunksAux]
      | cons x xs =>
          cases fuel₂ with
          | zero => simp at h2
          | succ f2 =>
              simp only [chunksAux, List.isEmpty_cons, Bool.false_eq_true,
                if_false]
              refine congrArg _ (ih f2 _ ?_ ?_)
              · simp only [List.length_drop, List.length_cons] at *
                omega
              · simp only [List.length_drop, List.length_cons] at *
                omega

theorem chunks_cons {α : Type} (n : ℕ) (hn : 0 < n) (l : List α)
    (hl : l ≠ []) : chunks n l = l.take n :: chunks n (l.drop n) := by
  unfold chunks
  cases l with
  | nil => contradiction
  | cons x xs =>
      simp only [chunksAux, List.length_cons, List.isEmpty_cons,
        Bool.false_eq_true, if_false]
      refine congrArg _ (chunksAux_congr n hn _ _ _ ?_ ?_)
      · simp only [List.length_drop, List.length_cons]
        omega
      · exact le_refl _

theorem chunks_flatten {α : Type} (n : ℕ) (hn : 0 < n)
    (bs : List (List α)) (hb : ∀ b ∈ bs, b.length = n) :
    chunks n bs.flatten = bs := by
  induction bs with
  | nil => rfl
  | cons b bt ih =>
      have hbn : b.length = n := hb b (by simp)
      have hbne : b ≠ [] := by
        intro h
        rw [h] at hbn
        simp at hbn
        omega
      rw [List.flatten_cons,
        chunks_cons n hn _ (List.append_ne_nil_of_left_ne_nil hbne _)]
      rw [← hbn, List.take_left, List.drop_left, hbn]
      exact congrArg _ (ih fun x hx => hb x (by simp [hx]))

theorem length_flatten_const {α : Type} (ls : List (List α)) (k : ℕ)
    (h : ∀ b ∈ ls, b.length = k) : ls.flatten.length = ls.length * k := by
  rw [List.length_flatten]
  rw [List.sum_eq_card_nsmul (ls.map List.length) k ?_]
  · simp [Nat.smul_one_eq_cast]
  · intro x hx
    rcases List.mem_map.mp hx with ⟨b, hb, rfl⟩
    exact h b hb

theorem getLast?_flatten_ends {α : Type} (ls : List (List α)) (z : α)
    (hne : ls ≠ []) (hend : ∀ b ∈ ls, b.getLast? = some z) :
    ls.flatten.getLast? = some z := by
  induction ls with
  | nil => contradiction
  | cons b bt ih =>
      cases bt with
      | nil => simpa using hend b (by simp)
      | cons b2 bt2 =>
          rw [List.flatten_cons]
          have h2 : (b2 :: bt2).flatten.getLast? = some z :=
            ih (by simp) (fun x hx => hend x (by simp [hx]))
          have hne2 : (b2 :: bt2).flatten ≠ [] := by
            intro h
            rw [h] at h2
            simp at h2
          rw [List.getLast?_append_of_ne_nil _ hne2]
          exact h2

/-- Unfolded shape of the tiling step: with a rectangular
`[rows][Lc][t0]`-shaped stack, `rep ≥ 1` repeats and `stride = rep * Lc`,
the tiled-and-padded result has `rows.length * (stride + 1)` rows and ends
with the inserted zero row. -/
theorem tileRows_spec {β : Type} (rep Lc t0 : ℕ) (zrow : List β)
    (stacked : List (List (List β)))
    (hrep : 0 < rep) (hLc : 0 < Lc) (ht0 : 0 < t0)
    (hrow : ∀ row ∈ stacked, row.length = Lc)
    (hlvl : ∀ row ∈ stacked, ∀ lvl ∈ row, lvl.length = t0) :
    (tileRows rep (rep * Lc) t0 zrow stacked).length
        = stacked.length * (rep * Lc + 1) ∧
    (stacked ≠ [] →
      (tileRows rep (rep * Lc) t0 zrow stacked).getLast? = some zrow) := by
  unfold tileRows
  have hinner : ∀ row ∈ stacked,
      (row.map fun lvl => chunks t0 (List.flatten (List.replicate rep lvl)))
        = row.map fun lvl => List.replicate rep lvl := by
    intro row hr
    refine List.map_congr_left fun lvl hl2 => ?_
    refine chunks_flatten t0 ht0 _ fun b hb => ?_
    rw [List.eq_of_mem_replicate hb]
    exact hlvl row hr lvl hl2
  have hrows3 :
      (stacked.map fun row => (row.map fun lvl =>
          chunks t0 (List.flatten (List.replicate rep lvl))).flatten)
        = stacked.map fun row => (row.map fun lvl =>
          List.replicate rep lvl).flatten := by
    refine List.map_congr_left fun row hr => ?_
    rw [hinner row hr]
  rw [hrows3]
  have hgrouplen : ∀ g ∈ stacked.map (fun row =>
      (row.map fun lvl => List.replicate rep lvl).flatten), g.length = rep * Lc := by
    intro g hg
    rcases List.mem_map.mp hg with ⟨row, hr, rfl⟩
    rw [length_flatten_const _ rep ?_]
    · rw [List.length_map, hrow row hr, Nat.mul_comm]
    · intro b hb
      rcases List.mem_map.mp hb with ⟨lvl, _, rfl⟩
      exact List.length_replicate _ _
  have hch : chunks (rep * Lc)
      ((stacked.map fun row =>
        (row.map fun lvl => List.replicate rep lvl).flatten).flatten)
      = stacked.map fun row => (row.map fun lvl => List.replicate rep lvl).flatten :=
    chunks_flatten (rep * Lc) (by positivity) _ hgrouplen
  simp only [hch]
  constructor
  · rw [length_flatten_const _ (rep * Lc + 1) ?_]
    · simp
    · intro b hb
      rcases List.mem_map.mp hb with ⟨g, hg, rfl⟩
      rcases List.mem_map.mp hg with ⟨row, hr, rfl⟩
      rw [List.length_append]
      have := hgrouplen _ (List.mem_map.mpr ⟨row, hr, rfl⟩)
      simp [this]
  · intro hne
    refine getLast?_flatten_ends _ _ ?_ ?_
    · simp [hne]
    · intro b hb
      rcases List.mem_map.mp hb with ⟨g, _, rfl⟩
      exact List.getLast?_concat _

/-! ## Shape lemmas for the `visualize_rays` stacks -/

theorem transposeL_length {α : Type} (dflt : α) (xss : List (List α)) :
    (transposeL dflt xss).length = (xss.head?.getD []).length := by
  simp [transposeL]

theorem transposeL_getD {α : Type} (dflt : α) (xss : List (List α)) (r : ℕ)
    (hr : r < (xss.head?.getD []).length) :
    (transposeL dflt xss).getD r [] = xss.map fun xs => xs.getD r dflt := by
  have hlen : r < (transposeL dflt xss).length := by
    rw [transposeL_length]
    exact hr
  rw [List.getD_eq_getElem _ _ hlen]
  unfold transposeL
  rw [List.getElem_map, List.getElem_range]

theorem mem_transposeL {α : Type} {dflt : α} {xss : List (List α)}
    {row : List α} (h : row ∈ transposeL dflt xss) :
    ∃ r, r < (xss.head?.getD []).length ∧
      row = xss.map fun xs => xs.getD r dflt := by
  unfold transposeL at h
  rcases List.mem_map.mp h with ⟨r, hr, rfl⟩
  exact ⟨r, List.mem_range.mp hr, rfl⟩

/-- Shapes of the two stacked tensors of `visualize_rays`: both have one
row per ray of the first level, every row has one entry per level, and the
alpha rows are exactly the per-level resampled weight curves of the
corresponding ray. -/
theorem raysStacks_shape (resampleF : List ℚ → List ℚ → List ℚ → List ℚ)
    (tvis : List ℚ) (accumulate : Bool)
    (dist weights : List (List (List ℚ))) (rgbs : List (List (List (List ℚ))))
    (L R : ℕ) (hL1 : 0 < L)
    (hLd : dist.length = L) (hLw : weights.length = L) (hLr : rgbs.length = L)
    (hRd : ∀ ds ∈ dist, ds.length = R)
    (hRw : ∀ ws ∈ weights, ws.length = R)
    (hRr : ∀ rs ∈ rgbs, rs.length = R) :
    (raysStacks resampleF tvis accumulate dist weights rgbs).1.length = R ∧
    (raysStacks resampleF tvis accumulate dist weights rgbs).2.length = R ∧
    (∀ row ∈ (raysStacks resampleF tvis accumulate dist weights rgbs).1,
      row.length = L) ∧
    (∀ row ∈ (raysStacks resampleF tvis accumulate dist weights rgbs).2,
      row.length = L) ∧
    (∀ r, r < R →
      (raysStacks resampleF tvis accumulate dist weights rgbs).2.getD r []
        = (dist.zip (weights.zip rgbs)).map fun dwr =>
            rayAlphaCurve resampleF tvis accumulate (dwr.1.getD r [])
              (dwr.2.1.getD r []) (dwr.2.2.getD r [])) := by
  have hZlen : (dist.zip (weights.zip rgbs)).length = L := by
    rw [List.length_zip, List.length_zip, hLd, hLw, hLr]
    simp
  have hZmem : ∀ dwr ∈ dist.zip (weights.zip rgbs),
      dwr.1.length = R ∧ dwr.2.1.length = R ∧ dwr.2.2.length = R := by
    intro dwr hdwr
    have h1 : dwr.1 ∈ dist ∧ dwr.2 ∈ weights.zip rgbs := List.of_mem_zip hdwr
    have h2 : dwr.2.1 ∈ weights ∧ dwr.2.2 ∈ rgbs := List.of_mem_zip h1.2
    exact ⟨hRd _ h1.1, hRw _ h2.1, hRr _ h2.2⟩
  have hZne : dist.zip (weights.zip rgbs) ≠ [] := by
    intro h
    rw [h] at hZlen
    simp at hZlen
    omega
  obtain ⟨z0, ztl, hz⟩ : ∃ z0 ztl, dist.zip (weights.zip rgbs) = z0 :: ztl := by
    cases hzz : dist.zip (weights.zip rgbs) with
    | nil => exact absurd hzz hZne
    | cons a b => exact ⟨a, b, rfl⟩
  have hz0 : z0 ∈ dist.zip (weights.zip rgbs) := by
    rw [hz]
    simp
  have hz0R := hZmem z0 hz0
  have hraysLen : ∀ dwr : List (List ℚ) × (List (List ℚ) × List (List (List ℚ))),
      dwr ∈ dist.zip (weights.zip rgbs) →
      (dwr.1.zip (dwr.2.1.zip dwr.2.2)).length = R := by
    intro dwr hdwr
    have := hZmem dwr hdwr
    rw [List.length_zip, List.length_zip, this.1, this.2.1, this.2.2]
    simp
  refine ⟨?_, ?_, ?_, ?_, ?_⟩
  · unfold raysStacks
    rw [transposeL_length]
    simp only [List.head?_map, hz, List.head?_cons, Option.map_some, Option.map_some',
      Option.getD_some, List.length_map]
    exact hraysLen z0 hz0
  · unfold raysStacks
    rw [transposeL_length]
    simp only [List.head?_map, hz, List.head?_cons, Option.map_some, Option.map_some',
      Option.getD_some, List.length_map]
    exact hraysLen z0 hz0
  · intro row hrow
    unfold raysStacks at hrow
    rcases mem_transposeL hrow with ⟨r, _, rfl⟩
    simp [hZlen]
  · intro row hrow
    unfold raysStacks at hrow
    rcases mem_transposeL hrow with ⟨r, _, rfl⟩
    simp [hZlen]
  · intro r hr
    unfold raysStacks
    rw [transposeL_getD _ _ r ?_]
    · rw [List.map_map, List.map_map]
      refine List.map_congr_left fun dwr hdwr => ?_
      have hlen := hraysLen dwr hdwr
      have hmem := hZmem dwr hdwr
      simp only [Function.comp]
      have hrb : r < ((dwr.1.zip (dwr.2.1.zip dwr.2.2)).map fun dwr2 =>
          (rayRgbOf resampleF tvis accumulate dwr2.1 dwr2.2.1 dwr2.2.2,
           rayAlphaCurve resampleF tvis accumulate dwr2.1 dwr2.2.1
             dwr2.2.2)).length := by
        rw [List.length_map, hlen]
        exact hr
      rw [List.getD_eq_getElem _ _ (by simpa using hrb)]
      have hrz : r < (dwr.1.zip (dwr.2.1.zip dwr.2.2)).length := by
        rw [hlen]
        exact hr
      rw [List.getElem_map, List.getElem_map, List.getElem_zip,
        List.getElem_zip]
      rw [List.getD_eq_getElem _ _ (by rw [hmem.1]; exact hr),
        List.getD_eq_getElem _ _ (by rw [hmem.2.1]; exact hr),
        List.getD_eq_getElem _ _ (by rw [hmem.2.2]; exact hr)]
    · simp only [List.head?_map, hz, List.head?_cons, Option.map_some, Option.map_some',
        Option.getD_some, List.length_map]
      rw [hraysLen z0 hz0]
      exact hr

theorem raysAlphaNorm_length (b : Bool) (x : List (List (List ℚ))) :
    (raysAlphaNorm b x).length = x.length := by
  unfold raysAlphaNorm
  cases b <;> simp

theorem raysAlphaNorm_shape (b : Bool) (x : List (List (List ℚ)))
    (L t0 : ℕ) (hrow : ∀ row ∈ x, row.length = L)
    (hlvl : ∀ row ∈ x, ∀ lvl ∈ row, lvl.length = t0) :
    (∀ row ∈ raysAlphaNorm b x, row.length = L) ∧
    (∀ row ∈ raysAlphaNorm b x, ∀ lvl ∈ row, lvl.length = t0) := by
  unfold raysAlphaNorm
  cases b with
  | false => exact ⟨hrow, hlvl⟩
  | true =>
      simp only [if_true]
      constructor
      · intro row hr
        rcases List.mem_map.mp hr with ⟨row0, hr0, rfl⟩
        rw [List.length_map]
        exact hrow row0 hr0
      · intro row hr lvl hl
        rcases List.mem_map.mp hr with ⟨row0, hr0, rfl⟩
        rcases List.mem_map.mp hl with ⟨lvl0, hl0, rfl⟩
        rw [List.length_map]
        exact hlvl row0 hr0 lvl0 hl0

/-- C8 witness: at `x = 1/2` (outside both threshold windows) both round
trips restore `x` exactly. -/
theorem srgb_linear_inverse_witness :
    srgb_to_linear (linear_to_srgb (1/2)) = 1/2 ∧
    linear_to_srgb (srgb_to_linear (1/2)) = 1/2 := by
  have hcross : srgbCross < 1/2 := by
    have h5 : srgbCross ^ (5:ℕ) < ((1/2:ℝ)) ^ (5:ℕ) := by
      rw [srgbCross_pow5]
      norm_num
    exact lt_of_pow_lt_pow_left₀ 5 (by norm_num) h5
  exact ⟨(srgb_linear_inverse (1/2) (by norm_num) (by norm_num)).1
      (Or.inr hcross),
    (srgb_linear_inverse (1/2) (by norm_num) (by norm_num)).2
      (Or.inr (by norm_num))⟩

/-! ## C9 — visualize_rays always drops the final row -/

/-- C9: `visualize_rays` removes the final row of both returned arrays on
every call.  With `R` rays per level, `L` levels and resampled curves of
length `t0`: when the tiling branch is not taken (`resolution ≤ R`) the
pre-drop stacks have exactly one row per ray, so the returned arrays have
`R - 1` rows, and the dropped row is the resampled weight data of the last
ray of every level — ray data, not inserted background padding.  When the
tiling branch is taken (`R·L + 1 ≤ resolution`), the pre-drop arrays have
`R · (rep·L + 1)` rows and the dropped row is the zero-alpha padding row
appended after the last repeat block. -/
theorem visualize_rays_drops_last_row
    (resampleF : List ℚ → List ℚ → List ℚ → List ℚ)
    (dist weights : List (List (List ℚ))) (rgbs : List (List (List (List ℚ))))
    (accumulate renormalize : Bool) (resolution : ℕ) (distLo distHi bg : ℚ)
    (L R t0 : ℕ) (hL1 : 0 < L) (hR1 : 0 < R) (hT1 : 0 < t0)
    (hLd : dist.length = L) (hLw : weights.length = L) (hLr : rgbs.length = L)
    (hRd : ∀ ds ∈ dist, ds.length = R)
    (hRw : ∀ ws ∈ weights, ws.length = R)
    (hRr : ∀ rs ∈ rgbs, rs.length = R)
    (hT : ∀ d w,
      (resampleF (linspaceQ distLo distHi (resolution + 1)) d w).length = t0)
    (hC : ∀ row ∈ (raysStacks resampleF
        (linspaceQ distLo distHi (resolution + 1))
        accumulate dist weights rgbs).1, ∀ lvl ∈ row, lvl.length = t0) :
    (resolution ≤ R →
      visualize_rays resampleF dist distLo distHi weights rgbs accumulate
          renormalize resolution bg
        = .untiled
            (compositeUntiled bg
              (raysStacks resampleF (linspaceQ distLo distHi (resolution + 1))
                accumulate dist weights rgbs).1
              (raysAlphaNorm renormalize
                (raysStacks resampleF (linspaceQ distLo distHi (resolution + 1))
                  accumulate dist weights rgbs).2)).dropLast
            (raysAlphaNorm renormalize
              (raysStacks resampleF (linspaceQ distLo distHi (resolution + 1))
                accumulate dist weights rgbs).2).dropLast
      ∧ (raysAlphaNorm renormalize
          (raysStacks resampleF (linspaceQ distLo distHi (resolution + 1))
            accumulate dist weights rgbs).2).length = R
      ∧ (raysStacks resampleF (linspaceQ distLo distHi (resolution + 1))
            accumulate dist weights rgbs).2.getD (R - 1) []
          = (dist.zip (weights.zip rgbs)).map fun dwr =>
              rayAlphaCurve resampleF
                (linspaceQ distLo distHi (resolution + 1)) accumulate
                (dwr.1.getD (R - 1) []) (dwr.2.1.getD (R - 1) [])
                (dwr.2.2.getD (R - 1) [])) ∧
    (R * L + 1 ≤ resolution →
      ∃ v a, visualize_rays resampleF dist distLo distHi weights rgbs
          accumulate renormalize resolution bg = .tiled v a
        ∧ a = (tileRows (resolution / (R * L + 1))
            (resolution / (R * L + 1) * L) t0 (List.replicate t0 0)
            (raysAlphaNorm renormalize
              (raysStacks resampleF (linspaceQ distLo distHi (resolution + 1))
                accumulate dist weights rgbs).2)).dropLast
        ∧ (tileRows (resolution / (R * L + 1))
            (resolution / (R * L + 1) * L) t0 (List.replicate t0 0)
            (raysAlphaNorm renormalize
              (raysStacks resampleF (linspaceQ distLo distHi (resolution + 1))
                accumulate dist weights rgbs).2)).length
            = R * (resolution / (R * L + 1) * L + 1)
        ∧ (tileRows (resolution / (R * L + 1))
            (resolution / (R * L + 1) * L) t0 (List.replicate t0 0)
            (raysAlphaNorm renormalize
              (raysStacks resampleF (linspaceQ distLo distHi (resolution + 1))
                accumulate dist weights rgbs).2)).getLast?
            = some (List.replicate t0 0)
        ∧ v.length = R * (resolution / (R * L + 1) * L + 1) - 1
        ∧ a.length = R * (resolution / (R * L + 1) * L + 1) - 1) := by
  have hshape := raysStacks_shape resampleF
    (linspaceQ distLo distHi (resolution + 1)) accumulate dist weights rgbs
    L R hL1 hLd hLw hLr hRd hRw hRr
  set tvis := linspaceQ distLo distHi (resolution + 1) with htvis
  set st := raysStacks resampleF tvis accumulate dist weights rgbs with hst
  obtain ⟨h1, h2, h3, h4, h5⟩ := hshape
  have hS6 : ∀ row ∈ st.2, ∀ lvl ∈ row, lvl.length = t0 := by
    intro row hrow lvl hlvl
    rcases List.mem_iff_getElem.mp hrow with ⟨r, hrlen, hrR⟩
    have hrR' : r < R := by rw [← h2]; exact hrlen
    have hrow_eq : row = st.2.getD r [] := by
      rw [List.getD_eq_getElem _ _ hrlen, hrR]
    rw [hrow_eq, h5 r hrR'] at hlvl
    rcases List.mem_map.mp hlvl with ⟨dwr, _, rfl⟩
    exact hT _ _
  have hva := raysAlphaNorm_shape renormalize st.2 L t0 h4 hS6
  have hva_len : (raysAlphaNorm renormalize st.2).length = R := by
    rw [raysAlphaNorm_length, h2]
  constructor
  · intro hres
    have hbr : ¬ (resolution > st.1.length) := by
      rw [h1]
      omega
    refine ⟨?_, hva_len, h5 (R - 1) (by omega)⟩
    simp only [visualize_rays]
    rw [← htvis, ← hst]
    rw [if_neg hbr]
  · intro hres
    have hRL : R < R * L + 1 := by
      have : R * 1 ≤ R * L := Nat.mul_le_mul_left R hL1
      omega
    have hbr : resolution > st.1.length := by
      rw [h1]
      omega
    have hne1 : st.1 ≠ [] := by
      intro h
      rw [h] at h1
      simp at h1
      omega
    obtain ⟨row0, hrow0⟩ : ∃ row0, st.1.head? = some row0 := by
      cases hh : st.1.head? with
      | none => exact absurd (List.head?_eq_none_iff.mp hh) hne1
      | some r0 => exact ⟨r0, rfl⟩
    have hrow0mem : row0 ∈ st.1 := List.mem_of_mem_head? hrow0
    have hrow0len : row0.length = L := h3 row0 hrow0mem
    have hrow0ne : row0 ≠ [] := by
      intro h
      rw [h] at hrow0len
      simp at hrow0len
      omega
    obtain ⟨lvl0, hlvl0⟩ : ∃ lvl0, row0.head? = some lvl0 := by
      cases hh : row0.head? with
      | none => exact absurd (List.head?_eq_none_iff.mp hh) hrow0ne
      | some l0 => exact ⟨l0, rfl⟩
    have hlvl0mem : lvl0 ∈ row0 := List.mem_of_mem_head? hlvl0
    have hlvl0len : lvl0.length = t0 := hC row0 hrow0mem lvl0 hlvl0mem
    have e1 : st.1.length = R := h1
    have e2 : (st.1.head?.getD []).length = L := by
      rw [hrow0]
      exact hrow0len
    have e3 : ((st.1.head?.getD []).head?.getD []).length = t0 := by
      rw [hrow0]
      simp only [Option.getD_some]
      rw [hlvl0]
      exact hlvl0len
    have hrep1 : 0 < resolution / (R * L + 1) :=
      Nat.div_pos hres (by omega)
    have htile_alpha := tileRows_spec (resolution / (R * L + 1)) L t0
      (List.replicate t0 0) (raysAlphaNorm renormalize st.2) hrep1 hL1 hT1
      hva.1 hva.2
    have htile_rgb := tileRows_spec (resolution / (R * L + 1)) L t0
      (List.replicate t0
        (List.replicate (((st.1.head?.getD []).head?.getD []).head?.getD
          []).length (0:ℚ)))
      st.1 hrep1 hL1 hT1 h3 hC
    have hvane : raysAlphaNorm renormalize st.2 ≠ [] := by
      intro h
      rw [h] at hva_len
      simp at hva_len
      omega
    have heq : visualize_rays resampleF dist distLo distHi weights rgbs
        accumulate renormalize resolution bg
      = .tiled
          (compositeTiled bg
            (tileRows (resolution / (R * L + 1)) (resolution / (R * L + 1) * L)
              t0
              (List.replicate t0 (List.replicate
                ((((st.1.head?.getD []).head?.getD []).head?.getD []).length)
                (0:ℚ)))
              st.1)
            (tileRows (resolution / (R * L + 1)) (resolution / (R * L + 1) * L)
              t0 (List.replicate t0 0)
              (raysAlphaNorm renormalize st.2))).dropLast
          (tileRows (resolution / (R * L + 1)) (resolution / (R * L + 1) * L)
            t0 (List.replicate t0 0)
            (raysAlphaNorm renormalize st.2)).dropLast := by
      simp only [visualize_rays]
      rw [← htvis, ← hst, if_pos hbr, e1, e2, e3]
    refine ⟨_, _, heq, rfl, ?_, ?_, ?_, ?_⟩
    · rw [htile_alpha.1, hva_len]
    · exact htile_alpha.2 hvane
    · simp only [compositeTiled]
      rw [List.length_dropLast, List.length_zipWith, htile_alpha.1,
        htile_rgb.1, hva_len, h1]
      simp
    · rw [List.length_dropLast, htile_alpha.1, hva_len]

/-- C9 witness: one level, two rays, one sample each, `resolution = 1 ≤ 2`
rays: the tiling branch is skipped, the two returned arrays still lose
their final row (one ray's worth of resampled data), and the pre-drop last
alpha row is the resampled weight curve of the second ray. -/
theorem visualize_rays_drops_last_row_witness :
    visualize_rays (fun _ _ _ => ([0, 0] : List ℚ)) [[[0], [1]]] 0 1
        [[[1], [1]]] [[[[1]], [[1]]]] false false 1 0
      = .untiled
          (compositeUntiled 0
            (raysStacks (fun _ _ _ => ([0, 0] : List ℚ)) (linspaceQ 0 1 2)
              false [[[0], [1]]] [[[1], [1]]] [[[[1]], [[1]]]]).1
            (raysAlphaNorm false
              (raysStacks (fun _ _ _ => ([0, 0] : List ℚ)) (linspaceQ 0 1 2)
                false [[[0], [1]]] [[[1], [1]]] [[[[1]], [[1]]]]).2)).dropLast
          (raysAlphaNorm false
            (raysStacks (fun _ _ _ => ([0, 0] : List ℚ)) (linspaceQ 0 1 2)
              false [[[0], [1]]] [[[1], [1]]] [[[[1]], [[1]]]]).2).dropLast
    ∧ (raysAlphaNorm false
        (raysStacks (fun _ _ _ => ([0, 0] : List ℚ)) (linspaceQ 0 1 2)
          false [[[0], [1]]] [[[1], [1]]] [[[[1]], [[1]]]]).2).length = 2
    ∧ (raysStacks (fun _ _ _ => ([0, 0] : List ℚ)) (linspaceQ 0 1 2)
          false [[[0], [1]]] [[[1], [1]]] [[[[1]], [[1]]]]).2.getD (2 - 1) []
        = ([[[0], [1]]].zip ([[[1], [1]]].zip [[[[1]], [[1]]]])).map
            fun dwr =>
              rayAlphaCurve (fun _ _ _ => ([0, 0] : List ℚ))
                (linspaceQ 0 1 2) false (dwr.1.getD (2 - 1) [])
                (dwr.2.1.getD (2 - 1) []) (dwr.2.2.getD (2 - 1) []) :=
  (visualize_rays_drops_last_row (fun _ _ _ => ([0, 0] : List ℚ))
    [[[0], [1]]] [[[1], [1]]] [[[[1]], [[1]]]] false false 1 0 1 0
    1 2 2 (by decide) (by decide) (by decide)
    (by decide) (by decide) (by decide)
    (by decide) (by decide) (by decide)
    (fun _ _ => rfl) (by decide)).1 (by decide)

end RefNerf
